import Mathlib

/-!
Verification of the annotation-normalization, text-reconstruction and audit
layer of the law-dictionary OCR pipeline.

The embedding follows the TypeScript sources:
* `loadVisionFile` and `extractText` from `src/utils/extract-text.ts`
  (the variant that unwraps a `responses` array, walks the hierarchy first,
  appends a block-boundary newline and finishes with `.trim()`);
* `auditJsonFile` from `src/validate.ts`.

Numbers are modelled as exact rationals (the sources use JS floats only for
sums, division and comparisons against the literals 0.8 and 0.9); the JS
`NaN` produced by `0/0` is modelled by an explicit `JsNum.nan` constructor.
JS strings are modelled by Lean `String`; the character class trimmed by
`String.prototype.trim` is modelled by the ASCII whitespace characters that
can actually occur here (space, tab, newline, carriage return, vertical tab,
form feed).
-/

/-- One `symbols` array entry of the Vision hierarchy.  `breakType` models
the optional chain `symbol.property?.detectedBreak?.type` (absence at any
level of the chain collapses to `none`). -/
structure OcrSymbol where
  text : Option String
  breakType : Option String
deriving DecidableEq

/-- One `words` array entry; `confidence` is the optional per-word score. -/
structure Word where
  symbols : Option (List OcrSymbol)
  confidence : Option ℚ
deriving DecidableEq

/-- One `paragraphs` array entry. -/
structure Paragraph where
  words : Option (List Word)
deriving DecidableEq

/-- One `blocks` array entry. -/
structure Block where
  paragraphs : Option (List Paragraph)
deriving DecidableEq

/-- One `pages` array entry. -/
structure Page where
  blocks : Option (List Block)
deriving DecidableEq

/-- The canonical annotation object (`VisionAnnotation` in the source):
optional `pages` hierarchy and optional provider-flattened `text`. -/
structure AnnotationDoc where
  pages : Option (List Page)
  text : Option String
deriving DecidableEq

/-- A value stored in the raw input's `responses` array: a JSON object
(with the three fields the loader may read), JSON `null` (or a hole past
the end of the array), or a non-object primitive. -/
inductive RawVal where
  | obj (fullTextAnn : Option AnnotationDoc) (pages : Option (List Page)) (text : Option String)
  | nullish
  | prim
deriving DecidableEq

/-- `loadVisionFile`'s normalization step, applied to a parsed top-level
JSON object with fields `responses` (`none` models absent or non-array),
`fullTextAnnotation`, `pages` and `text`:
`const root = Array.isArray(json.responses) ? json.responses[0] : json;`
`const data = (root && typeof root === 'object' && root.fullTextAnnotation) ?? root ?? json;`
For an empty `responses` array, `responses[0]` is `undefined`, so the
nullish-coalescing chain falls back to `json` itself, whose own
`pages`/`text` fields (not its `fullTextAnnotation`) are then read. -/
def loadNormalize (responses : Option (List RawVal)) (fullTextAnn : Option AnnotationDoc)
    (pages : Option (List Page)) (text : Option String) : AnnotationDoc :=
  match responses with
  | none =>
    match fullTextAnn with
    | some ann => ann
    | none => ⟨pages, text⟩
  | some [] => ⟨pages, text⟩
  | some (r :: _) =>
    match r with
    | .obj (some ann) _ _ => ann
    | .obj none rpages rtext => ⟨rpages, rtext⟩
    | .nullish => ⟨pages, text⟩
    | .prim => ⟨none, none⟩

/-- The whitespace characters relevant to `String.prototype.trim` here. -/
def jsWs (c : Char) : Bool :=
  c == ' ' || c == '\t' || c == '\n' || c == '\r' || c == Char.ofNat 11 || c == Char.ofNat 12

/-- Drop leading whitespace (the left half of JS `trim`). -/
def trimLead (l : List Char) : List Char := l.dropWhile jsWs

/-- Drop trailing whitespace (the right half of JS `trim`). -/
def trimTrail (l : List Char) : List Char := (l.reverse.dropWhile jsWs).reverse

/-- JS `String.prototype.trim`: whitespace removed from both ends. -/
def jsTrim (s : String) : String := ⟨trimLead (trimTrail s.data)⟩

/-- Modelled from the spec: removal of trailing whitespace and newlines
from the very end only (the spec's claimed final step of `extractText`,
which says interior and leading whitespace are preserved exactly). -/
def trimTrailOnly (s : String) : String := ⟨trimTrail s.data⟩

/-- `parts.join('')`. -/
def joinParts (l : List String) : String := ⟨(l.map String.data).flatten⟩

/-- `s.endsWith('\n')` for a one-character suffix. -/
def endsWithNlStr (s : String) : Bool := s.data.getLast? == some '\n'

/-- The check `parts[parts.length - 1]?.endsWith('\n')` on the array of
emitted pieces (`false` when the array is empty). -/
def lastPartEndsNl (parts : List String) : Bool :=
  match parts.getLast? with
  | some s => endsWithNlStr s
  | none => false

/-- Whitespace pieces pushed after a symbol, from its break type:
`if (breakType === 'LINE_BREAK' || breakType === 'EOL_SURE_SPACE') parts.push('\n');`
`else if (breakType === 'SPACE' || breakType === 'SURE_SPACE') parts.push(' ');` -/
def breakList (b : Option String) : List String :=
  match b with
  | none => []
  | some t =>
    if t = "LINE_BREAK" || t = "EOL_SURE_SPACE" then ["\n"]
    else if t = "SPACE" || t = "SURE_SPACE" then [" "]
    else []

/-- Processing of one symbol in `extractText`'s innermost loop:
`if (symbol.text != null) parts.push(symbol.text);` then the break pieces. -/
def symbolStep (parts : List String) (s : OcrSymbol) : List String :=
  (match s.text with
   | some t => parts ++ [t]
   | none => parts) ++ breakList s.breakType

/-- `for (const symbol of word.symbols ?? [])`. -/
def wordStepT (parts : List String) (w : Word) : List String :=
  (w.symbols.getD []).foldl symbolStep parts

/-- `for (const word of paragraph.words ?? [])`. -/
def paraStepT (parts : List String) (p : Paragraph) : List String :=
  (p.words.getD []).foldl wordStepT parts

/-- One block of `extractText`: the paragraph loop followed by
`if (!parts[parts.length - 1]?.endsWith('\n')) parts.push('\n');`. -/
def blockStepT (parts : List String) (b : Block) : List String :=
  if lastPartEndsNl ((b.paragraphs.getD []).foldl paraStepT parts)
  then (b.paragraphs.getD []).foldl paraStepT parts
  else ((b.paragraphs.getD []).foldl paraStepT parts) ++ ["\n"]

/-- `for (const block of page.blocks ?? [])`. -/
def pageStepT (parts : List String) (pg : Page) : List String :=
  (pg.blocks.getD []).foldl blockStepT parts

/-- The pieces emitted by the full hierarchy walk over `pages`. -/
def rawParts (pgs : List Page) : List String := pgs.foldl pageStepT []

/-- `extractText` of `src/utils/extract-text.ts`: fall back to the flat
`text` field when `pages` is absent or empty, otherwise walk the hierarchy
and finish with `parts.join('').trim()`. -/
def extractText (d : AnnotationDoc) : String :=
  match d.pages with
  | none => d.text.getD ""
  | some [] => d.text.getD ""
  | some (pg :: rest) => jsTrim (joinParts (rawParts (pg :: rest)))

/-- Modelled from the claim wording of C4: after a block, the newline is
appended exactly when the output emitted so far (the concatenation of the
pieces, not merely the last piece) does not already end in a newline. -/
def blockStepC4 (parts : List String) (b : Block) : List String :=
  if endsWithNlStr (joinParts ((b.paragraphs.getD []).foldl paraStepT parts))
  then (b.paragraphs.getD []).foldl paraStepT parts
  else ((b.paragraphs.getD []).foldl paraStepT parts) ++ ["\n"]

/-- Page loop over the C4-claim block step. -/
def pageStepC4 (parts : List String) (pg : Page) : List String :=
  (pg.blocks.getD []).foldl blockStepC4 parts

/-- The C4-claim variant of `extractText` (identical except for the
block-boundary condition). -/
def extractTextC4 (d : AnnotationDoc) : String :=
  match d.pages with
  | none => d.text.getD ""
  | some [] => d.text.getD ""
  | some (pg :: rest) => jsTrim (joinParts ((pg :: rest).foldl pageStepC4 []))

/-- Modelled from the spec's per-symbol emission table (C5): the symbol's
literal text, then a newline for `LINE_BREAK`/`EOL_SURE_SPACE`, a single
space for `SPACE`/`SURE_SPACE`, and nothing for any other value or absence. -/
def symPiecesSpec (s : OcrSymbol) : List String :=
  (match s.text with
   | some t => [t]
   | none => []) ++
  (match s.breakType with
   | some t =>
     if t = "LINE_BREAK" || t = "EOL_SURE_SPACE" then ["\n"]
     else if t = "SPACE" || t = "SURE_SPACE" then [" "]
     else []
   | none => [])

/-- A single-page, single-block, single-paragraph, single-word document
holding the given symbol list (used to state the per-symbol break table). -/
def docOfSyms (syms : List OcrSymbol) : AnnotationDoc :=
  ⟨some [⟨some [⟨some [⟨some [⟨some syms, none⟩]⟩]⟩]⟩], none⟩

/-- A JS number that is either an actual (rational) value or `NaN`. -/
inductive JsNum where
  | num (q : ℚ)
  | nan
deriving DecidableEq

/-- Outcome of `auditJsonFile` on a parsed annotation: the early return on
missing/empty `pages`, a crash (`TypeError`) when a structural array is
absent inside the walk, or the computed report fields. -/
inductive AuditOutcome where
  | noStructure
  | crash
  | report (wordCount flaggedWordCount blockCount : ℕ) (meanConfidence : JsNum)
deriving DecidableEq

/-- `const score = word.confidence || 0;` (a missing confidence counts as 0;
a present confidence of 0 is also falsy and likewise yields 0). -/
def wordConf (w : Word) : ℚ := w.confidence.getD 0

/-- The per-word accumulator update of `auditJsonFile`:
word count, cumulative confidence, flagged count (score strictly below 0.8). -/
def auditWord (acc : ℕ × ℚ × ℕ) (w : Word) : ℕ × ℚ × ℕ :=
  let score := wordConf w
  (acc.1 + 1, acc.2.1 + score, if score < (8 : ℚ) / 10 then acc.2.2 + 1 else acc.2.2)

/-- `para.words.forEach(...)`. -/
def auditWords (acc : ℕ × ℚ × ℕ) (ws : List Word) : ℕ × ℚ × ℕ :=
  ws.foldl auditWord acc

/-- `block.paragraphs.forEach(...)`; an absent `words` array crashes. -/
def auditParas (acc : ℕ × ℚ × ℕ) (ps : List Paragraph) : Option (ℕ × ℚ × ℕ) :=
  match ps with
  | [] => some acc
  | p :: rest =>
    match p.words with
    | none => none
    | some ws => auditParas (auditWords acc ws) rest

/-- `page.blocks.forEach(...)`; an absent `paragraphs` array crashes. -/
def auditBlocks (acc : ℕ × ℚ × ℕ) (bs : List Block) : Option (ℕ × ℚ × ℕ) :=
  match bs with
  | [] => some acc
  | b :: rest =>
    match b.paragraphs with
    | none => none
    | some ps =>
      match auditParas acc ps with
      | none => none
      | some acc2 => auditBlocks acc2 rest

/-- `data.pages.forEach(...)`; an absent `blocks` array crashes. -/
def auditPages (acc : ℕ × ℚ × ℕ) (pgs : List Page) : Option (ℕ × ℚ × ℕ) :=
  match pgs with
  | [] => some acc
  | pg :: rest =>
    match pg.blocks with
    | none => none
    | some bs =>
      match auditBlocks acc bs with
      | none => none
      | some acc2 => auditPages acc2 rest

/-- The stats computation of `auditJsonFile` (`src/validate.ts`): early
return when `pages` is absent or empty, the triple-accumulator walk,
`averageConfidence = cumulativeConfidence / wordCount` (JS yields `NaN`
when `wordCount` is 0, since the cumulative sum is then also 0), and
`blockCount = data.pages[0].blocks.length`. -/
def auditStats (d : AnnotationDoc) : AuditOutcome :=
  match d.pages with
  | none => .noStructure
  | some [] => .noStructure
  | some (pg :: rest) =>
    match auditPages (0, 0, 0) (pg :: rest) with
    | none => .crash
    | some (wc, cum, fl) =>
      match pg.blocks with
      | none => .crash
      | some bs =>
        .report wc fl bs.length (if wc = 0 then JsNum.nan else JsNum.num (cum / (wc : ℚ)))

/-- All words of the document in document order (spec-side description:
"walk every word exactly once"). -/
def docWords (d : AnnotationDoc) : List Word :=
  (d.pages.getD []).flatMap fun pg =>
    (pg.blocks.getD []).flatMap fun b =>
      (b.paragraphs.getD []).flatMap fun p => p.words.getD []

/-- Spec-side word count: the total number of words across all pages. -/
def wordTotal (d : AnnotationDoc) : ℕ := (docWords d).length

/-- Spec-side cumulative confidence: absent confidences contribute 0. -/
def confSum (d : AnnotationDoc) : ℚ := ((docWords d).map wordConf).sum

/-- Spec-side flagged count: words with confidence strictly below 0.8. -/
def flaggedTotal (d : AnnotationDoc) : ℕ :=
  ((docWords d).filter fun w => decide (wordConf w < (8 : ℚ) / 10)).length

/-- Spec-side block count: the number of blocks on the first page only. -/
def firstBlockCount (d : AnnotationDoc) : ℕ :=
  match d.pages.getD [] with
  | [] => 0
  | pg :: _ => (pg.blocks.getD []).length

/-- A paragraph whose `words` array is present. -/
def paraComplete (p : Paragraph) : Bool := p.words.isSome

/-- A block whose `paragraphs` array is present, with complete paragraphs. -/
def blockComplete (b : Block) : Bool :=
  match b.paragraphs with
  | some ps => ps.all paraComplete
  | none => false

/-- A page whose `blocks` array is present, with complete blocks. -/
def pageComplete (pg : Page) : Bool :=
  match pg.blocks with
  | some bs => bs.all blockComplete
  | none => false

/-- A document whose structural arrays are all present (the canonical
data-model shape, under which `auditJsonFile`'s walk cannot crash). -/
def docComplete (d : AnnotationDoc) : Bool :=
  match d.pages with
  | some pgs => pgs.all pageComplete
  | none => false

/-- The stats-shape of an audit outcome: everything the report derives from
the hierarchy except the mean confidence itself. -/
def statsShape : AuditOutcome → Option (ℕ × ℕ × ℕ)
  | .report wc fl bc _ => some (wc, fl, bc)
  | _ => none

/-- Replace every absent structural array by an empty one (the `?? []`
reading `extractText` applies at each level). -/
def fillWord (w : Word) : Word := ⟨some (w.symbols.getD []), w.confidence⟩

/-- Fill a paragraph's arrays. -/
def fillPara (p : Paragraph) : Paragraph := ⟨some ((p.words.getD []).map fillWord)⟩

/-- Fill a block's arrays. -/
def fillBlock (b : Block) : Block := ⟨some ((b.paragraphs.getD []).map fillPara)⟩

/-- Fill a page's arrays. -/
def fillPage (pg : Page) : Page := ⟨some ((pg.blocks.getD []).map fillBlock)⟩

/-- Fill all structural arrays of a document (the flat `text` field is kept). -/
def fillDoc (d : AnnotationDoc) : AnnotationDoc :=
  ⟨some ((d.pages.getD []).map fillPage), d.text⟩

/-- No symbol of the document carries a present-but-empty `text` string. -/
def symOk (s : OcrSymbol) : Bool := !(s.text == some "")

/-- `symOk` over a word. -/
def wordOk (w : Word) : Bool := (w.symbols.getD []).all symOk

/-- `symOk` over a paragraph. -/
def paraOk (p : Paragraph) : Bool := (p.words.getD []).all wordOk

/-- `symOk` over a block. -/
def blockOk (b : Block) : Bool := (b.paragraphs.getD []).all paraOk

/-- `symOk` over a page. -/
def pageOk (pg : Page) : Bool := (pg.blocks.getD []).all blockOk

/-- `symOk` over a document. -/
def docSymOk (d : AnnotationDoc) : Bool := (d.pages.getD []).all pageOk

/-- A block holding one word whose symbols spell the given text, without
break metadata. -/
def mkBlock (chars : List Char) : Block :=
  ⟨some [⟨some [⟨some (chars.map fun c => ⟨some ⟨[c]⟩, none⟩), none⟩]⟩]⟩

/-- Two blocks, each a single word with the single symbol `"X"`, no breaks. -/
def docXX : AnnotationDoc :=
  ⟨some [⟨some [mkBlock ['X'], mkBlock ['X']]⟩], none⟩

/-- One word `cat` whose final symbol carries a `SPACE` break, followed by a
word `dog` (one page, one block, one paragraph). -/
def catDogDoc : AnnotationDoc :=
  ⟨some [⟨some [⟨some [⟨some [
    ⟨some [⟨some "c", none⟩, ⟨some "a", none⟩, ⟨some "t", some "SPACE"⟩], none⟩,
    ⟨some [⟨some "d", none⟩, ⟨some "o", none⟩, ⟨some "g", none⟩], none⟩]⟩]⟩]⟩], none⟩

/-- C4 counterexample input: block 1 emits `A`, a line break, then a symbol
with the empty string as text; block 2 emits `B`. -/
def cexC4 : AnnotationDoc :=
  ⟨some [⟨some [
    ⟨some [⟨some [⟨some [⟨some "A", some "LINE_BREAK"⟩, ⟨some "", none⟩], none⟩]⟩]⟩,
    ⟨some [⟨some [⟨some [⟨some "B", none⟩], none⟩]⟩]⟩]⟩], none⟩

/-- C8 counterexample pages: an empty first block (which contributes the
implicit block-boundary newline as the very first piece) followed by a
block emitting `A`. -/
def cexC8Pages : List Page :=
  [⟨some [⟨some []⟩, ⟨some [⟨some [⟨some [⟨some "A", none⟩], none⟩]⟩]⟩]⟩]

/-- C8 counterexample input. -/
def cexC8 : AnnotationDoc := ⟨some cexC8Pages, none⟩

/-- Audit witness pages: one page, one block, three words of confidence
1, 1/2 and 9/10 (the spec's own worked example). -/
def pagesW : List Page :=
  [⟨some [⟨some [⟨some [⟨some [], some 1⟩, ⟨some [], some ((1 : ℚ)/2)⟩,
    ⟨some [], some ((9 : ℚ)/10)⟩]⟩]⟩]⟩]

/-- Audit witness input. -/
def auditDocW : AnnotationDoc := ⟨some pagesW, none⟩

/-- One page, zero blocks: structural pages but no words at all. -/
def pagesZero : List Page := [⟨some []⟩]

/-- A document with structural pages (one page, zero blocks) and no words. -/
def docZeroWords : AnnotationDoc := ⟨some pagesZero, none⟩

/-- One page, one block, one paragraph, zero words. -/
def pagesZero2 : List Page := [⟨some [⟨some [⟨some []⟩]⟩]⟩]

/-- A document with one block and one paragraph but zero words. -/
def docZeroWords2 : AnnotationDoc := ⟨some pagesZero2, none⟩

/-- One word of confidence exactly 9/10. -/
def pages90 : List Page := [⟨some [⟨some [⟨some [⟨some [], some ((9 : ℚ)/10)⟩]⟩]⟩]⟩]

/-- Document whose mean confidence is exactly 0.90. -/
def doc90 : AnnotationDoc := ⟨some pages90, none⟩

/-- One word of confidence 9001/10000. -/
def pages9001 : List Page := [⟨some [⟨some [⟨some [⟨some [], some ((9001 : ℚ)/10000)⟩]⟩]⟩]⟩]

/-- Document whose mean confidence is 0.9001. -/
def doc9001 : AnnotationDoc := ⟨some pages9001, none⟩

/-- Pieces emitted by the whole walk are nonempty strings: the predicate
used to compare the code's block-boundary check with the claimed one. -/
def GoodParts (parts : List String) : Prop := ∀ s ∈ parts, s.data ≠ []

lemma auditWords_spec (ws : List Word) (a : ℕ) (b : ℚ) (c : ℕ) :
    auditWords (a, b, c) ws
      = (a + ws.length, b + ((ws.map wordConf).sum),
         c + (ws.filter fun w => decide (wordConf w < (8 : ℚ)/10)).length) := by
  induction ws generalizing a b c with
  | nil => simp [auditWords]
  | cons w rest ih =>
    show auditWords (auditWord (a, b, c) w) rest = _
    have hstep : auditWord (a, b, c) w
        = (a + 1, b + wordConf w, if wordConf w < (8 : ℚ)/10 then c + 1 else c) := rfl
    rw [hstep]
    by_cases hw : wordConf w < (8 : ℚ)/10
    · have hd : (decide (wordConf w < (8 : ℚ)/10)) = true := decide_eq_true hw
      rw [if_pos hw, ih]
      simp only [List.length_cons, List.map_cons, List.sum_cons, List.filter_cons, hd,
        if_true, Prod.mk.injEq]
      refine ⟨by omega, by ring, by omega⟩
    · have hd : (decide (wordConf w < (8 : ℚ)/10)) = false := decide_eq_false hw
      rw [if_neg hw, ih]
      simp only [List.length_cons, List.map_cons, List.sum_cons, List.filter_cons, hd,
        if_false, Prod.mk.injEq]
      refine ⟨by omega, by ring, rfl⟩

lemma auditParas_complete (ps : List Paragraph) (acc : ℕ × ℚ × ℕ)
    (h : ps.all paraComplete = true) :
    auditParas acc ps = some (auditWords acc (ps.flatMap fun p => p.words.getD [])) := by
  induction ps generalizing acc with
  | nil => simp [auditParas, auditWords]
  | cons p rest ih =>
    simp only [List.all_cons, Bool.and_eq_true] at h
    obtain ⟨hp, hrest⟩ := h
    cases hw : p.words with
    | none => simp [paraComplete, hw] at hp
    | some ws =>
      simp only [auditParas, hw]
      rw [ih _ hrest]
      congr 1
      rw [List.flatMap_cons, hw]
      simp only [Option.getD_some]
      unfold auditWords
      rw [List.foldl_append]

lemma auditBlocks_complete (bs : List Block) (acc : ℕ × ℚ × ℕ)
    (h : bs.all blockComplete = true) :
    auditBlocks acc bs
      = some (auditWords acc (bs.flatMap fun b =>
          (b.paragraphs.getD []).flatMap fun p => p.words.getD [])) := by
  induction bs generalizing acc with
  | nil => simp [auditBlocks, auditWords]
  | cons b rest ih =>
    simp only [List.all_cons, Bool.and_eq_true] at h
    obtain ⟨hb, hrest⟩ := h
    cases hps : b.paragraphs with
    | none => simp [blockComplete, hps] at hb
    | some ps =>
      have hpall : ps.all paraComplete = true := by
        unfold blockComplete at hb
        rw [hps] at hb
        exact hb
      simp only [auditBlocks, hps]
      rw [auditParas_complete ps acc hpall]
      show auditBlocks (auditWords acc (ps.flatMap fun p => p.words.getD [])) rest = _
      rw [ih _ hrest]
      congr 1
      rw [List.flatMap_cons, hps]
      simp only [Option.getD_some]
      unfold auditWords
      rw [List.foldl_append]

lemma auditPages_complete (pgs : List Page) (acc : ℕ × ℚ × ℕ)
    (h : pgs.all pageComplete = true) :
    auditPages acc pgs
      = some (auditWords acc (pgs.flatMap fun pg =>
          (pg.blocks.getD []).flatMap fun b =>
            (b.paragraphs.getD []).flatMap fun p => p.words.getD [])) := by
  induction pgs generalizing acc with
  | nil => simp [auditPages, auditWords]
  | cons pg rest ih =>
    simp only [List.all_cons, Bool.and_eq_true] at h
    obtain ⟨hpg, hrest⟩ := h
    cases hbs : pg.blocks with
    | none => simp [pageComplete, hbs] at hpg
    | some bs =>
      have hball : bs.all blockComplete = true := by
        unfold pageComplete at hpg
        rw [hbs] at hpg
        exact hpg
      simp only [auditPages, hbs]
      rw [auditBlocks_complete bs acc hball]
      show auditPages (auditWords acc
        (bs.flatMap fun b => (b.paragraphs.getD []).flatMap fun p => p.words.getD [])) rest = _
      rw [ih _ hrest]
      congr 1
      rw [List.flatMap_cons, hbs]
      simp only [Option.getD_some]
      unfold auditWords
      rw [List.foldl_append]

lemma docWords_cons (pg : Page) (rest : List Page) (txt : Option String) :
    docWords ⟨some (pg :: rest), txt⟩
      = (pg :: rest).flatMap fun pg =>
          (pg.blocks.getD []).flatMap fun b =>
            (b.paragraphs.getD []).flatMap fun p => p.words.getD [] := rfl

lemma auditStats_char (d : AnnotationDoc) (pgs : List Page) (hp : d.pages = some pgs)
    (hne : pgs ≠ []) (hc : docComplete d = true) :
    auditStats d
      = AuditOutcome.report (wordTotal d) (flaggedTotal d) (firstBlockCount d)
        (if wordTotal d = 0 then JsNum.nan
         else JsNum.num (confSum d / (wordTotal d : ℚ))) := by
  obtain ⟨pages, txt⟩ := d
  have hp' : pages = some pgs := hp
  subst hp'
  cases pgs with
  | nil => exact absurd rfl hne
  | cons pg rest =>
    have hc' : (pg :: rest).all pageComplete = true := hc
    have hpg : pageComplete pg = true := by
      simp only [List.all_cons, Bool.and_eq_true] at hc'
      exact hc'.1
    obtain ⟨bs, hbs⟩ : ∃ bs, pg.blocks = some bs := by
      cases h : pg.blocks with
      | some bs => exact ⟨bs, rfl⟩
      | none => simp [pageComplete, h] at hpg
    simp only [auditStats, auditPages_complete _ _ hc', hbs]
    rw [auditWords_spec]
    simp only [Nat.zero_add, zero_add]
    have hwt : wordTotal ⟨some (pg :: rest), txt⟩
        = ((pg :: rest).flatMap fun pg =>
            (pg.blocks.getD []).flatMap fun b =>
              (b.paragraphs.getD []).flatMap fun p => p.words.getD []).length := rfl
    have hfl : flaggedTotal ⟨some (pg :: rest), txt⟩
        = (((pg :: rest).flatMap fun pg =>
            (pg.blocks.getD []).flatMap fun b =>
              (b.paragraphs.getD []).flatMap fun p => p.words.getD []).filter
            fun w => decide (wordConf w < (8 : ℚ)/10)).length := rfl
    have hcs : confSum ⟨some (pg :: rest), txt⟩
        = (((pg :: rest).flatMap fun pg =>
            (pg.blocks.getD []).flatMap fun b =>
              (b.paragraphs.getD []).flatMap fun p => p.words.getD []).map wordConf).sum := rfl
    have hfb : firstBlockCount ⟨some (pg :: rest), txt⟩ = (pg.blocks.getD []).length := rfl
    have hfb2 : firstBlockCount ⟨some (pg :: rest), txt⟩ = bs.length := by
      rw [hfb, hbs]
      simp
    rw [← hwt, ← hfl, ← hcs, hfb2]

lemma flagged_zero (d : AnnotationDoc) (h : wordTotal d = 0) : flaggedTotal d = 0 := by
  have hd : docWords d = [] := List.length_eq_zero.mp h
  unfold flaggedTotal
  rw [hd]
  rfl

/-- C1: the three raw-input shapes carrying the same annotation content
(root-canonical, wrapped under a fullTextAnnotation key, and wrapped under
responses[0] with or without the inner wrapper) all normalize to that same
canonical document. -/
theorem normalize_shapes_agree (ann : AnnotationDoc) :
    loadNormalize none none ann.pages ann.text = ann ∧
    loadNormalize none (some ann) none none = ann ∧
    loadNormalize (some [RawVal.obj none ann.pages ann.text]) none none none = ann ∧
    loadNormalize (some [RawVal.obj (some ann) none none]) none none none = ann := by
  obtain ⟨pages, txt⟩ := ann
  exact ⟨rfl, rfl, rfl, rfl⟩

/-- C2: for every document of the canonical data-model shape (structural
arrays present) with a non-empty pages list and at least one word, the
audit reports wordCount = total words across all pages, flaggedWordCount =
words with confidence (absent counting as 0) strictly below 0.8,
meanConfidence = cumulative confidence divided by wordCount, and
blockCount = the number of blocks on the first page only. -/
theorem auditStats_counts (d : AnnotationDoc) (pgs : List Page)
    (hp : d.pages = some pgs) (hne : pgs ≠ []) (hc : docComplete d = true)
    (hw : wordTotal d ≠ 0) :
    auditStats d
      = AuditOutcome.report (wordTotal d) (flaggedTotal d) (firstBlockCount d)
        (JsNum.num (confSum d / (wordTotal d : ℚ))) := by
  rw [auditStats_char d pgs hp hne hc, if_neg hw]

/-- Witness for C2 at the spec's worked example: three words of confidence
1, 1/2 and 9/10 give wordCount 3, one flagged word, one block and mean 4/5. -/
theorem auditStats_counts_witness :
    auditStats auditDocW = AuditOutcome.report 3 1 1 (JsNum.num ((4 : ℚ)/5)) := by
  have h := auditStats_counts auditDocW pagesW rfl (by decide) (by decide) (by decide)
  rw [h]
  norm_num [wordTotal, flaggedTotal, firstBlockCount, confSum, docWords, auditDocW, pagesW,
    wordConf, List.filter]

/-- C3 counterexample: on a document with structural pages (one page, zero
blocks) and zero words, the audit returns normally with a NaN mean
confidence; no DivisionByZeroError (or any error) is signaled, contrary to
the claim. -/
theorem auditNaN_not_signaled :
    auditStats docZeroWords = AuditOutcome.report 0 0 0 JsNum.nan := by
  decide

/-- C3 amended: for every complete document with structural pages and zero
words, the audit silently computes NaN (the JS result of 0/0) as the mean
confidence and returns the remaining statistics; nothing is signaled. -/
theorem auditStats_zero_words_nan (d : AnnotationDoc) (pgs : List Page)
    (hp : d.pages = some pgs) (hne : pgs ≠ []) (hc : docComplete d = true)
    (hw : wordTotal d = 0) :
    auditStats d = AuditOutcome.report 0 0 (firstBlockCount d) JsNum.nan := by
  rw [auditStats_char d pgs hp hne hc, hw, flagged_zero d hw]
  simp

/-- Witness for the amended C3: one block, one paragraph, zero words. -/
theorem auditStats_zero_words_nan_witness :
    auditStats docZeroWords2 = AuditOutcome.report 0 0 1 JsNum.nan := by
  have h := auditStats_zero_words_nan docZeroWords2 pagesZero2 rfl (by decide) (by decide)
    (by decide)
  rw [h]
  decide

/-- C6: when the pages field is absent or an empty list, extractText
returns the flattened text field unchanged (empty string when that is also
absent); no hierarchy reconstruction is attempted. -/
theorem extractText_fallback_no_pages (d : AnnotationDoc)
    (h : d.pages = none ∨ d.pages = some []) :
    extractText d = d.text.getD "" := by
  obtain ⟨pages, txt⟩ := d
  cases pages with
  | none => rfl
  | some l =>
    cases l with
    | nil => rfl
    | cons a as => rcases h with h | h <;> simp at h

/-- Witness for C6 at the spec's scenario input. -/
theorem extractText_fallback_no_pages_witness :
    extractText ⟨none, some "A fortiori"⟩ = "A fortiori" := by
  have h := extractText_fallback_no_pages ⟨none, some "A fortiori"⟩ (Or.inl rfl)
  rw [h]
  rfl

/-- C7 counterexample: the complete outcome of the audit at mean confidence
exactly 0.90 and at 0.9001 — the code returns only the four statistics (and
prints them); there is no passed component that is false at 0.90 and true
at 0.9001, contrary to the claimed Report contract. -/
theorem audit_no_passed_cex :
    auditStats doc90 = AuditOutcome.report 1 0 1 (JsNum.num ((9 : ℚ)/10)) ∧
    auditStats doc9001 = AuditOutcome.report 1 0 1 (JsNum.num ((9001 : ℚ)/10000)) := by
  constructor
  · norm_num [auditStats, doc90, pages90, auditPages, auditBlocks, auditParas, auditWords,
      auditWord, wordConf]
  · norm_num [auditStats, doc9001, pages9001, auditPages, auditBlocks, auditParas, auditWords,
      auditWord, wordConf]

/-- C7 amended: the audit derives nothing from the confidences beyond the
mean and the flagged count — two complete documents agreeing on word count,
flagged count and first-page block count produce audit outcomes identical
except possibly in the mean itself (in particular no pass/fail bit against
the documented 0.90 threshold exists in the output). -/
theorem audit_no_passed_beyond_stats (d₁ d₂ : AnnotationDoc) (pgs₁ pgs₂ : List Page)
    (hp₁ : d₁.pages = some pgs₁) (hne₁ : pgs₁ ≠ []) (hc₁ : docComplete d₁ = true)
    (hp₂ : d₂.pages = some pgs₂) (hne₂ : pgs₂ ≠ []) (hc₂ : docComplete d₂ = true)
    (hw : wordTotal d₁ = wordTotal d₂) (hf : flaggedTotal d₁ = flaggedTotal d₂)
    (hb : firstBlockCount d₁ = firstBlockCount d₂) :
    statsShape (auditStats d₁) = statsShape (auditStats d₂) := by
  rw [auditStats_char d₁ pgs₁ hp₁ hne₁ hc₁, auditStats_char d₂ pgs₂ hp₂ hne₂ hc₂]
  simp [statsShape, hw, hf, hb]

/-- Witness for the amended C7 at the two boundary documents. -/
theorem audit_no_passed_beyond_stats_witness :
    statsShape (auditStats doc90) = statsShape (auditStats doc9001) := by
  exact audit_no_passed_beyond_stats doc90 doc9001 pages90 pages9001 rfl (by decide)
    (by decide) rfl (by decide) (by decide) (by decide)
    (by norm_num [flaggedTotal, docWords, doc90, doc9001, pages90, pages9001, wordConf,
      List.filter])
    (by decide)

/-- C9 counterexample: an empty responses array does not fail — the loader
falls back to the whole raw object, producing a usable canonical document
(here one whose flat text is then extracted), contrary to the claimed
EmptyResponseList error. -/
theorem empty_responses_no_error_cex :
    loadNormalize (some []) none none (some "hi") = ⟨none, some "hi"⟩ ∧
    extractText ⟨none, some "hi"⟩ = "hi" :=
  ⟨rfl, rfl⟩

/-- C9 amended: when the responses array is non-empty with an object first
element, normalization continues on responses[0] alone (every other field of
the outer object is ignored); when the array is empty, the whole raw object
itself is used as the annotation (its own pages/text fields) and no error is
signaled. -/
theorem responses_unwrap_behavior :
    (∀ (fta : Option AnnotationDoc) (rp : Option (List Page)) (rt : Option String)
      (rs rs' : List RawVal) (f f' : Option AnnotationDoc)
      (p p' : Option (List Page)) (t t' : Option String),
      loadNormalize (some (RawVal.obj fta rp rt :: rs)) f p t
        = loadNormalize (some (RawVal.obj fta rp rt :: rs')) f' p' t') ∧
    (∀ (f : Option AnnotationDoc) (p : Option (List Page)) (t : Option String),
      loadNormalize (some []) f p t = ⟨p, t⟩) := by
  constructor
  · intro fta rp rt rs rs' f f' p p' t t'
    cases fta <;> rfl
  · intro f p t
    rfl

lemma dataEmpty_iff (s : String) : s.data = [] ↔ s = "" := by
  obtain ⟨l⟩ := s
  constructor
  · intro h
    have h' : l = [] := h
    subst h'
    rfl
  · intro h
    rw [h]

lemma joinParts_append (l m : List String) :
    (joinParts (l ++ m)).data = (joinParts l).data ++ (joinParts m).data := by
  simp [joinParts]

lemma trimTrail_append_ws (l : List Char) (c : Char) (h : jsWs c = true) :
    trimTrail (l ++ [c]) = trimTrail l := by
  unfold trimTrail
  rw [List.reverse_append]
  simp [List.dropWhile_cons, h]

lemma jsTrim_append_nl (ps : List String) :
    jsTrim (joinParts (ps ++ ["\n"])) = jsTrim (joinParts ps) := by
  have h : (joinParts (ps ++ ["\n"])).data = (joinParts ps).data ++ ['\n'] := by
    rw [joinParts_append]
    rfl
  unfold jsTrim
  rw [h, trimTrail_append_ws _ '\n' (by decide)]

lemma head_dropWhile_false (p : Char → Bool) (l : List Char) :
    ∀ c, (l.dropWhile p).head? = some c → p c = false := by
  induction l with
  | nil =>
    intro c hc
    simp at hc
  | cons a rest ih =>
    intro c hc
    rw [List.dropWhile_cons] at hc
    by_cases ha : p a = true
    · rw [if_pos ha] at hc
      exact ih c hc
    · rw [if_neg ha] at hc
      rw [List.head?_cons] at hc
      injection hc with h
      subst h
      cases hpa : p a with
      | false => rfl
      | true => exact absurd hpa ha

lemma foldl_congr_fn {α : Type} (f g : List String → α → List String)
    (h : ∀ p a, f p a = g p a) :
    ∀ (l : List α) (p : List String), l.foldl f p = l.foldl g p := by
  intro l
  induction l with
  | nil => intro p; rfl
  | cons a rest ih =>
    intro p
    rw [List.foldl_cons, List.foldl_cons, h, ih]

lemma symbolStep_eq (parts : List String) (s : OcrSymbol) :
    symbolStep parts s = parts ++ symPiecesSpec s := by
  obtain ⟨t, b⟩ := s
  unfold symbolStep symPiecesSpec breakList
  cases t <;> cases b <;> simp [List.append_assoc]

lemma foldl_symbolStep (syms : List OcrSymbol) (parts : List String) :
    syms.foldl symbolStep parts = parts ++ syms.flatMap symPiecesSpec := by
  induction syms generalizing parts with
  | nil => simp
  | cons s rest ih =>
    rw [List.foldl_cons, symbolStep_eq, ih, List.flatMap_cons, List.append_assoc]

lemma good_append (p q : List String) (hp : GoodParts p) (hq : GoodParts q) :
    GoodParts (p ++ q) := by
  intro s hs
  rcases List.mem_append.mp hs with h | h
  exacts [hp s h, hq s h]

lemma breakList_cases (b : Option String) :
    breakList b = [] ∨ breakList b = ["\n"] ∨ breakList b = [" "] := by
  cases b with
  | none => exact Or.inl rfl
  | some t =>
    simp only [breakList]
    by_cases h1 : (decide (t = "LINE_BREAK") || decide (t = "EOL_SURE_SPACE")) = true
    · rw [if_pos h1]
      exact Or.inr (Or.inl rfl)
    · rw [if_neg h1]
      by_cases h2 : (decide (t = "SPACE") || decide (t = "SURE_SPACE")) = true
      · rw [if_pos h2]
        exact Or.inr (Or.inr rfl)
      · rw [if_neg h2]
        exact Or.inl rfl

lemma breakList_good (b : Option String) : GoodParts (breakList b) := by
  rcases breakList_cases b with h | h | h <;> rw [h] <;> intro s hs
  · simp at hs
  · rw [List.mem_singleton] at hs
    rw [hs]
    decide
  · rw [List.mem_singleton] at hs
    rw [hs]
    decide

lemma nlPart_good : GoodParts ["\n"] := by
  intro s hs
  rw [List.mem_singleton] at hs
  rw [hs]
  decide

lemma symbolStep_good (parts : List String) (s : OcrSymbol) (hp : GoodParts parts)
    (hs : symOk s = true) : GoodParts (symbolStep parts s) := by
  obtain ⟨t, b⟩ := s
  unfold symbolStep
  apply good_append
  · cases t with
    | none => exact hp
    | some str =>
      apply good_append _ _ hp
      intro x hx
      rw [List.mem_singleton] at hx
      unfold symOk at hs
      simp at hs
      intro hd
      rw [hx] at hd
      exact hs ((dataEmpty_iff str).mp hd)
  · exact breakList_good b

lemma foldl_good {α : Type} (f : List String → α → List String) (ok : α → Bool)
    (hf : ∀ p a, GoodParts p → ok a = true → GoodParts (f p a)) :
    ∀ (l : List α) (p : List String), GoodParts p → l.all ok = true → GoodParts (l.foldl f p) := by
  intro l
  induction l with
  | nil =>
    intro p hp _
    exact hp
  | cons a rest ih =>
    intro p hp hall
    simp only [List.all_cons, Bool.and_eq_true] at hall
    rw [List.foldl_cons]
    exact ih (f p a) (hf p a hp hall.1) hall.2

lemma wordStepT_good (parts : List String) (w : Word) (hp : GoodParts parts)
    (hw : wordOk w = true) : GoodParts (wordStepT parts w) :=
  foldl_good symbolStep symOk symbolStep_good (w.symbols.getD []) parts hp hw

lemma paraStepT_good (parts : List String) (p : Paragraph) (hp : GoodParts parts)
    (hpa : paraOk p = true) : GoodParts (paraStepT parts p) :=
  foldl_good wordStepT wordOk wordStepT_good (p.words.getD []) parts hp hpa

lemma lastPart_join (parts : List String) (h : GoodParts parts) :
    lastPartEndsNl parts = endsWithNlStr (joinParts parts) := by
  induction parts using List.reverseRecOn with
  | nil => rfl
  | append_singleton l a ih =>
    have ha : a.data ≠ [] := h a (List.mem_append.mpr (Or.inr (List.mem_singleton_self a)))
    have h1 : (l ++ [a]).getLast? = some a := List.getLast?_concat l
    have h2 : (joinParts (l ++ [a])).data = (joinParts l).data ++ a.data := by
      rw [joinParts_append]
      simp [joinParts]
    unfold lastPartEndsNl endsWithNlStr
    rw [h1, h2, List.getLast?_append_of_ne_nil _ ha]

lemma blockInner_good (parts : List String) (b : Block) (hp : GoodParts parts)
    (hb : blockOk b = true) : GoodParts ((b.paragraphs.getD []).foldl paraStepT parts) :=
  foldl_good paraStepT paraOk paraStepT_good (b.paragraphs.getD []) parts hp hb

lemma blockStep_eq (parts : List String) (b : Block) (hp : GoodParts parts)
    (hb : blockOk b = true) :
    blockStepT parts b = blockStepC4 parts b ∧ GoodParts (blockStepT parts b) := by
  have hq : GoodParts ((b.paragraphs.getD []).foldl paraStepT parts) :=
    blockInner_good parts b hp hb
  constructor
  · unfold blockStepT blockStepC4
    rw [lastPart_join _ hq]
  · unfold blockStepT
    by_cases hl : lastPartEndsNl ((b.paragraphs.getD []).foldl paraStepT parts) = true
    · rw [if_pos hl]
      exact hq
    · rw [if_neg hl]
      exact good_append _ _ hq nlPart_good

lemma blocksFold_eq (bs : List Block) (parts : List String) (hp : GoodParts parts)
    (hb : bs.all blockOk = true) :
    bs.foldl blockStepT parts = bs.foldl blockStepC4 parts ∧
      GoodParts (bs.foldl blockStepT parts) := by
  induction bs generalizing parts with
  | nil => exact ⟨rfl, hp⟩
  | cons b rest ih =>
    simp only [List.all_cons, Bool.and_eq_true] at hb
    obtain ⟨heq, hgood⟩ := blockStep_eq parts b hp hb.1
    rw [List.foldl_cons, List.foldl_cons, ← heq]
    exact ih (blockStepT parts b) hgood hb.2

lemma pagesFold_eq (pgs : List Page) (parts : List String) (hp : GoodParts parts)
    (hall : pgs.all pageOk = true) :
    pgs.foldl pageStepT parts = pgs.foldl pageStepC4 parts ∧
      GoodParts (pgs.foldl pageStepT parts) := by
  induction pgs generalizing parts with
  | nil => exact ⟨rfl, hp⟩
  | cons pg rest ih =>
    simp only [List.all_cons, Bool.and_eq_true] at hall
    obtain ⟨heq, hgood⟩ : pageStepT parts pg = pageStepC4 parts pg ∧
        GoodParts (pageStepT parts pg) := by
      unfold pageStepT pageStepC4
      exact blocksFold_eq (pg.blocks.getD []) parts hp hall.1
    rw [List.foldl_cons, List.foldl_cons, ← heq]
    exact ih (pageStepT parts pg) hgood hall.2

/-- C4 counterexample: with block 1 emitting the pieces A, a newline and an
empty string, the emitted output ends in a newline but the code checks only
the last pushed piece (the empty string), so it appends another newline —
the code yields two-newline separation where the claimed rule yields one. -/
theorem blockNewline_lastPiece_cex :
    extractText cexC4 = "A\n\nB" ∧ extractTextC4 cexC4 = "A\nB" := ⟨rfl, rfl⟩

/-- C4 amended: the block-boundary newline is appended exactly when the last
emitted piece does not end in a newline (equivalently, when no symbol
contributes an empty text piece, exactly when the output so far does not end
in one); and on the two-block one-symbol X document extractText yields X,
newline, X as claimed. -/
theorem blockNewline_behavior :
    extractText docXX = "X\nX" ∧
    ∀ d : AnnotationDoc, docSymOk d = true → extractText d = extractTextC4 d := by
  constructor
  · rfl
  · intro d hd
    obtain ⟨pages, txt⟩ := d
    cases pages with
    | none => rfl
    | some l =>
      cases l with
      | nil => rfl
      | cons pg rest =>
        have hall : (pg :: rest).all pageOk = true := hd
        have hgp : GoodParts ([] : List String) := by
          intro s hs
          simp at hs
        have h := (pagesFold_eq (pg :: rest) [] hgp hall).1
        show jsTrim (joinParts (rawParts (pg :: rest)))
            = jsTrim (joinParts ((pg :: rest).foldl pageStepC4 []))
        unfold rawParts
        rw [h]

/-- Witness for the amended C4 at the two-block X document. -/
theorem blockNewline_behavior_witness :
    docSymOk docXX = true ∧ extractText docXX = extractTextC4 docXX :=
  ⟨by decide, blockNewline_behavior.2 docXX (by decide)⟩

/-- C5: on a one-word document holding any symbol list, extractText equals
the trim of the concatenation of the per-symbol pieces given by the spec's
break table (literal text, then a newline for LINE_BREAK/EOL_SURE_SPACE, a
space for SPACE/SURE_SPACE, nothing otherwise); in particular cat followed
by a SPACE break followed by dog reconstructs to cat-space-dog. -/
theorem extractText_break_table :
    (∀ syms : List OcrSymbol,
      extractText (docOfSyms syms) = jsTrim (joinParts (syms.flatMap symPiecesSpec))) ∧
    extractText catDogDoc = "cat dog" := by
  constructor
  · intro syms
    have hx : List.foldl symbolStep [] syms = syms.flatMap symPiecesSpec := by
      rw [foldl_symbolStep]
      simp
    show jsTrim (joinParts (rawParts [⟨some [⟨some [⟨some [⟨some syms, none⟩]⟩]⟩]⟩])) = _
    have hraw : rawParts [⟨some [⟨some [⟨some [⟨some syms, none⟩]⟩]⟩]⟩]
        = (if lastPartEndsNl (syms.flatMap symPiecesSpec)
           then syms.flatMap symPiecesSpec
           else syms.flatMap symPiecesSpec ++ ["\n"]) := by
      show (if lastPartEndsNl (List.foldl symbolStep [] syms)
            then List.foldl symbolStep [] syms
            else List.foldl symbolStep [] syms ++ ["\n"]) = _
      rw [hx]
    rw [hraw]
    by_cases hl : lastPartEndsNl (syms.flatMap symPiecesSpec) = true
    · rw [if_pos hl]
    · rw [if_neg hl]
      exact jsTrim_append_nl _
  · rfl

/-- C8 counterexample: the walk's raw emission here is newline, A, newline;
the claimed trailing-only removal yields a string still starting with the
newline, but the code's final trim also removes that leading newline. -/
theorem final_trim_leading_cex :
    extractText cexC8 = "A" ∧
    trimTrailOnly (joinParts (rawParts cexC8Pages)) = "\nA" := ⟨rfl, rfl⟩

/-- C8 amended: the result of the hierarchy walk equals the raw emitted
concatenation with whitespace and newlines removed from both ends (not the
very end only): the raw emission splits as lead ++ result ++ trail with lead
and trail all-whitespace, and the result neither starts nor ends in
whitespace; interior whitespace is preserved exactly. -/
theorem final_trim_both_ends (d : AnnotationDoc) (pgs : List Page)
    (hp : d.pages = some pgs) (hne : pgs ≠ []) :
    ∃ lead trail : List Char,
      (∀ c ∈ lead, jsWs c = true) ∧ (∀ c ∈ trail, jsWs c = true) ∧
      (joinParts (rawParts pgs)).data = lead ++ (extractText d).data ++ trail ∧
      (∀ c, (extractText d).data.head? = some c → jsWs c = false) ∧
      (∀ c, (extractText d).data.getLast? = some c → jsWs c = false) := by
  obtain ⟨pages, txt⟩ := d
  have hp' : pages = some pgs := hp
  subst hp'
  cases pgs with
  | nil => exact absurd rfl hne
  | cons pg rest =>
    have hext : (extractText ⟨some (pg :: rest), txt⟩).data
        = trimLead (trimTrail (joinParts (rawParts (pg :: rest))).data) := rfl
    refine ⟨(trimTrail (joinParts (rawParts (pg :: rest))).data).takeWhile jsWs,
      ((joinParts (rawParts (pg :: rest))).data.reverse.takeWhile jsWs).reverse,
      ?_, ?_, ?_, ?_, ?_⟩
    · intro c hc
      exact List.mem_takeWhile_imp hc
    · intro c hc
      rw [List.mem_reverse] at hc
      exact List.mem_takeWhile_imp hc
    · rw [hext]
      have h1 : trimTrail (joinParts (rawParts (pg :: rest))).data
            ++ ((joinParts (rawParts (pg :: rest))).data.reverse.takeWhile jsWs).reverse
          = (joinParts (rawParts (pg :: rest))).data := by
        unfold trimTrail
        rw [← List.reverse_append, List.takeWhile_append_dropWhile, List.reverse_reverse]
      have h2 : (trimTrail (joinParts (rawParts (pg :: rest))).data).takeWhile jsWs
            ++ trimLead (trimTrail (joinParts (rawParts (pg :: rest))).data)
          = trimTrail (joinParts (rawParts (pg :: rest))).data := by
        unfold trimLead
        exact List.takeWhile_append_dropWhile jsWs _
      rw [h2, h1]
    · intro c hc
      rw [hext] at hc
      exact head_dropWhile_false jsWs _ c hc
    · intro c hc
      rw [hext] at hc
      have hcore : trimLead (trimTrail (joinParts (rawParts (pg :: rest))).data) ≠ [] := by
        intro h0
        rw [h0] at hc
        simp at hc
      have h2 : (trimTrail (joinParts (rawParts (pg :: rest))).data).takeWhile jsWs
            ++ trimLead (trimTrail (joinParts (rawParts (pg :: rest))).data)
          = trimTrail (joinParts (rawParts (pg :: rest))).data :=
        List.takeWhile_append_dropWhile jsWs _
      have h3 : (trimTrail (joinParts (rawParts (pg :: rest))).data).getLast? = some c := by
        rw [← h2, List.getLast?_append_of_ne_nil _ hcore]
        exact hc
      unfold trimTrail at h3
      rw [List.getLast?_reverse] at h3
      exact head_dropWhile_false jsWs _ c h3

/-- Witness for the amended C8 at the C8 counterexample input. -/
theorem final_trim_both_ends_witness :
    ∃ lead trail : List Char,
      (∀ c ∈ lead, jsWs c = true) ∧ (∀ c ∈ trail, jsWs c = true) ∧
      (joinParts (rawParts cexC8Pages)).data = lead ++ (extractText cexC8).data ++ trail ∧
      (∀ c, (extractText cexC8).data.head? = some c → jsWs c = false) ∧
      (∀ c, (extractText cexC8).data.getLast? = some c → jsWs c = false) :=
  final_trim_both_ends cexC8 cexC8Pages rfl (by decide)

lemma paraStepT_fill (parts : List String) (p : Paragraph) :
    paraStepT parts (fillPara p) = paraStepT parts p := by
  show ((p.words.getD []).map fillWord).foldl wordStepT parts = _
  rw [List.foldl_map]
  rfl

lemma blockStepT_fill (parts : List String) (b : Block) :
    blockStepT parts (fillBlock b) = blockStepT parts b := by
  have h : (((fillBlock b).paragraphs.getD []).foldl paraStepT parts)
      = ((b.paragraphs.getD []).foldl paraStepT parts) := by
    show (((b.paragraphs.getD []).map fillPara).foldl paraStepT parts) = _
    rw [List.foldl_map]
    exact foldl_congr_fn _ _ paraStepT_fill _ parts
  unfold blockStepT
  rw [h]

lemma pageStepT_fill (parts : List String) (pg : Page) :
    pageStepT parts (fillPage pg) = pageStepT parts pg := by
  show (((pg.blocks.getD []).map fillBlock).foldl blockStepT parts) = _
  rw [List.foldl_map]
  exact foldl_congr_fn _ _ blockStepT_fill _ parts

/-- C10: extractText is total and robust over the optional-field shape —
replacing every absent structural array by an empty one leaves the result
unchanged (absent arrays are treated as empty sequences), and a symbol with
absent text contributes no text piece, only the whitespace its break
metadata dictates. -/
theorem extractText_total_robust :
    (∀ d : AnnotationDoc, extractText (fillDoc d) = extractText d) ∧
    (∀ (parts : List String) (b : Option String),
      symbolStep parts ⟨none, b⟩ = parts ++ breakList b) := by
  constructor
  · intro d
    obtain ⟨pages, txt⟩ := d
    cases pages with
    | none => rfl
    | some l =>
      cases l with
      | nil => rfl
      | cons pg rest =>
        show jsTrim (joinParts (rawParts ((pg :: rest).map fillPage)))
            = jsTrim (joinParts (rawParts (pg :: rest)))
        have h : rawParts ((pg :: rest).map fillPage) = rawParts (pg :: rest) := by
          unfold rawParts
          rw [List.foldl_map]
          exact foldl_congr_fn _ _ pageStepT_fill _ []
        rw [h]
  · intro parts b
    rfl
